import Mathlib

/-!
Verification of the lumberjack v3 rolling-logger (`Roller`) against its
natural-language specification.  Definitions are shallow embeddings of the Go
source: Go strings are `List Char`, Go `time.Time` values are broken-down
`GoTime` records, machine integers are `Int`/`Nat`, the file system observed
by the engine is explicit state, and OS calls whose outcome the code merely
branches on (stat/rename/open/chown errors, short writes) are supplied as
oracle inputs, so every code path of the source is representable.
-/

namespace Lumberjack

/-- Go strings, modelled as character lists (the code only handles ASCII). -/
abbrev Str := List Char

/-! ## Decimal digit formatting and parsing

Models the digit handling inside Go's `time.Time.Format` (`appendInt`, which
zero-pads to the requested width) and `time.Parse` (`getnum`/`atoi`, which
read a fixed number of decimal digits for the layout used here). -/

/-- The character for a decimal digit value (Go writes `'0'+d`). -/
def digitChar (d : Nat) : Char := Char.ofNat (48 + d)

/-- Decimal digits of `n`, most significant first; fuel-indexed so that it is
structurally recursive (the fuel `n+1` always suffices). -/
def natDigitsAux : Nat → Nat → List Char
  | 0, _ => []
  | f + 1, n => if n < 10 then [digitChar n] else natDigitsAux f (n / 10) ++ [digitChar (n % 10)]

/-- Decimal representation of `n` (as Go's `strconv`/`appendInt` prints it). -/
def natDigits (n : Nat) : Str := natDigitsAux (n + 1) n

/-- Zero-pad the decimal representation of `n` to width `w`
(Go `appendInt(b, x, width)`: pads with zeros, prints all digits if more). -/
def padNum (w n : Nat) : Str :=
  List.replicate (w - (natDigits n).length) '0' ++ natDigits n

/-- Numeric value of a digit character, `none` for non-digits
(Go's parse rejects non-digits). -/
def digitVal (c : Char) : Option Nat :=
  if '0' ≤ c ∧ c ≤ '9' then some (c.toNat - 48) else none

/-- Read exactly `w` decimal digits from the front of `s`, returning the value
and the rest (Go `getnum` with a fixed width). -/
def readDigits : Nat → Str → Nat → Option (Nat × Str)
  | 0, s, acc => some (acc, s)
  | _ + 1, [], _ => none
  | w + 1, c :: s, acc =>
    match digitVal c with
    | some d => readDigits w s (acc * 10 + d)
    | none => none

/-- Expect the literal character `c` (a layout separator in `time.Parse`). -/
def expectChar (c : Char) : Str → Option Str
  | [] => none
  | x :: s => if x = c then some s else none

/-! ### Round-trip lemmas for fixed-width numbers -/

theorem natDigitsAux_stable (fuel₁ fuel₂ n : Nat) (h₁ : n < fuel₁) (h₂ : n < fuel₂) :
    natDigitsAux fuel₁ n = natDigitsAux fuel₂ n := by
  induction n using Nat.strong_induction_on generalizing fuel₁ fuel₂ with
  | _ n ih =>
    obtain ⟨f₁, rfl⟩ : ∃ f, fuel₁ = f + 1 := ⟨fuel₁ - 1, by omega⟩
    obtain ⟨f₂, rfl⟩ : ∃ f, fuel₂ = f + 1 := ⟨fuel₂ - 1, by omega⟩
    by_cases h : n < 10
    · rw [natDigitsAux, natDigitsAux, if_pos h, if_pos h]
    · have hd : n / 10 < n := Nat.div_lt_self (by omega) (by omega)
      rw [natDigitsAux, natDigitsAux, if_neg h, if_neg h,
        ih (n / 10) hd f₁ f₂ (by omega) (by omega)]


theorem natDigits_eq (n : Nat) (h : 10 ≤ n) :
    natDigits n = natDigits (n / 10) ++ [digitChar (n % 10)] := by
  have hd : n / 10 < n := Nat.div_lt_self (by omega) (by omega)
  show natDigitsAux (n + 1) n = _
  rw [natDigitsAux, if_neg (show ¬n < 10 by omega)]
  congr 1
  exact natDigitsAux_stable n (n / 10 + 1) (n / 10) hd (Nat.lt_succ_self _)

theorem natDigits_small (n : Nat) (h : n < 10) : natDigits n = [digitChar n] := by
  simp [natDigits, natDigitsAux, h]

/-- Every character printed by `natDigits` is a digit character of value `< 10`. -/
theorem natDigits_chars (n : Nat) : ∀ c ∈ natDigits n, ∃ d, d < 10 ∧ c = digitChar d := by
  induction n using Nat.strong_induction_on with
  | _ n ih =>
    by_cases h : n < 10
    · rw [natDigits_small n h]
      intro c hc
      simp at hc
      exact ⟨n, h, hc⟩
    · rw [natDigits_eq n (by omega)]
      intro c hc
      rcases List.mem_append.mp hc with h1 | h2
      · exact ih (n / 10) (Nat.div_lt_self (by omega) (by omega)) c h1
      · simp at h2
        exact ⟨n % 10, Nat.mod_lt _ (by omega), h2⟩

theorem natDigits_length (w n : Nat) (hw : 1 ≤ w) (h : n < 10 ^ w) :
    (natDigits n).length ≤ w := by
  induction w generalizing n with
  | zero => omega
  | succ w ihw =>
    by_cases hn : n < 10
    · rw [natDigits_small n hn]; simp
    · have hw1 : 1 ≤ w := by
        by_contra hcon
        have hzero : w = 0 := by omega
        subst hzero
        have : n < 10 := by simpa using h
        omega
      have hdiv : n / 10 < 10 ^ w := by
        rw [Nat.div_lt_iff_lt_mul (by omega)]
        calc n < 10 ^ (w + 1) := h
        _ = 10 ^ w * 10 := by ring
      have hlen := ihw (n / 10) hw1 hdiv
      rw [natDigits_eq n (by omega)]
      simp only [List.length_append, List.length_cons, List.length_nil]
      omega

/-- Value accumulated by reading a digit string left to right. -/
def digitsVal (acc : Nat) : Str → Nat
  | [] => acc
  | c :: s => digitsVal (acc * 10 + (c.toNat - 48)) s

theorem digitsVal_append (acc : Nat) (s₁ s₂ : Str) :
    digitsVal acc (s₁ ++ s₂) = digitsVal (digitsVal acc s₁) s₂ := by
  induction s₁ generalizing acc with
  | nil => rfl
  | cons c s ih =>
    show digitsVal (acc * 10 + (c.toNat - 48)) (s ++ s₂) = _
    rw [ih]
    rfl

theorem digitVal_digitChar (d : Nat) (h : d < 10) : digitVal (digitChar d) = some d := by
  match d, h with
  | 0, _ => decide
  | 1, _ => decide
  | 2, _ => decide
  | 3, _ => decide
  | 4, _ => decide
  | 5, _ => decide
  | 6, _ => decide
  | 7, _ => decide
  | 8, _ => decide
  | 9, _ => decide

theorem digitChar_toNat (d : Nat) (h : d < 10) : (digitChar d).toNat = 48 + d := by
  match d, h with
  | 0, _ => decide
  | 1, _ => decide
  | 2, _ => decide
  | 3, _ => decide
  | 4, _ => decide
  | 5, _ => decide
  | 6, _ => decide
  | 7, _ => decide
  | 8, _ => decide
  | 9, _ => decide

theorem digitsVal_cons_digitChar (acc d : Nat) (hd : d < 10) (s : Str) :
    digitsVal acc (digitChar d :: s) = digitsVal (acc * 10 + d) s := by
  show digitsVal (acc * 10 + ((digitChar d).toNat - 48)) s = _
  rw [digitChar_toNat d hd]
  congr 1
  omega

theorem readDigits_exact (s rest : Str) (acc : Nat)
    (hdig : ∀ c ∈ s, ∃ d, d < 10 ∧ c = digitChar d) :
    readDigits s.length (s ++ rest) acc = some (digitsVal acc s, rest) := by
  induction s generalizing acc with
  | nil => rfl
  | cons c s ih =>
    obtain ⟨d, hd, hc⟩ := hdig c (by simp)
    subst hc
    rw [digitsVal_cons_digitChar acc d hd]
    simp only [List.length_cons, List.cons_append, readDigits, digitVal_digitChar d hd]
    exact ih (acc * 10 + d) (fun c hc => hdig c (by simp [hc]))

theorem digitsVal_natDigits (acc n : Nat) :
    digitsVal acc (natDigits n) = acc * 10 ^ (natDigits n).length + n := by
  induction n using Nat.strong_induction_on generalizing acc with
  | _ n ih =>
    by_cases h : n < 10
    · rw [natDigits_small n h, digitsVal_cons_digitChar acc n h]
      show acc * 10 + n = acc * 10 ^ [digitChar n].length + n
      rw [List.length_singleton, pow_one]
    · have hd : n / 10 < n := Nat.div_lt_self (by omega) (by omega)
      rw [natDigits_eq n (by omega), digitsVal_append, ih (n / 10) hd acc,
        digitsVal_cons_digitChar _ (n % 10) (Nat.mod_lt _ (by omega))]
      show (acc * 10 ^ (natDigits (n / 10)).length + n / 10) * 10 + n % 10
          = acc * 10 ^ (natDigits (n / 10) ++ [digitChar (n % 10)]).length + n
      rw [List.length_append, List.length_singleton]
      have hmod : n / 10 * 10 + n % 10 = n := by omega
      calc (acc * 10 ^ (natDigits (n / 10)).length + n / 10) * 10 + n % 10
          = acc * (10 ^ (natDigits (n / 10)).length * 10) + (n / 10 * 10 + n % 10) := by ring
        _ = acc * 10 ^ ((natDigits (n / 10)).length + 1) + n := by rw [hmod, pow_succ]

theorem digitsVal_replicate_zero (acc k : Nat) :
    digitsVal acc (List.replicate k '0') = acc * 10 ^ k := by
  induction k generalizing acc with
  | zero =>
    show acc = acc * 10 ^ 0
    rw [pow_zero, mul_one]
  | succ k ih =>
    rw [List.replicate_succ]
    show digitsVal (acc * 10 + (('0' : Char).toNat - 48)) (List.replicate k '0') = _
    rw [ih]
    have h0 : ('0' : Char).toNat - 48 = 0 := by decide
    rw [h0, pow_succ]
    ring

/-- Characters of `padNum` are digits. -/
theorem padNum_chars (w n : Nat) : ∀ c ∈ padNum w n, ∃ d, d < 10 ∧ c = digitChar d := by
  intro c hc
  rcases List.mem_append.mp hc with h1 | h2
  · have hc0 : c = '0' := List.eq_of_mem_replicate h1
    exact ⟨0, by omega, by rw [hc0]; decide⟩
  · exact natDigits_chars n c h2

theorem padNum_length (w n : Nat) (hw : 1 ≤ w) (h : n < 10 ^ w) :
    (padNum w n).length = w := by
  have := natDigits_length w n hw h
  simp only [padNum, List.length_append, List.length_replicate]
  omega

/-- Reading `w` digits from `padNum w n ++ rest` recovers `n` and `rest`. -/
theorem readDigits_padNum (w n : Nat) (rest : Str) (hw : 1 ≤ w) (h : n < 10 ^ w) :
    readDigits w (padNum w n ++ rest) 0 = some (n, rest) := by
  have hlen := padNum_length w n hw h
  have := readDigits_exact (padNum w n) rest 0 (padNum_chars w n)
  rw [hlen] at this
  rw [this]
  congr 2
  simp only [padNum, digitsVal_append]
  rw [digitsVal_natDigits, digitsVal_replicate_zero]
  simp

/-! ## Time values and the backup time format

`backupTimeFormat = "2006-01-02T15-04-05.000"`.  A Go `time.Time` is modelled
by its broken-down wall-clock fields (the only data this format touches). -/

/-- Broken-down wall-clock time (the fields of a Go `time.Time` that the
backup time format reads and writes). -/
structure GoTime where
  year : Nat
  month : Nat
  day : Nat
  hour : Nat
  minute : Nat
  sec : Nat
  nsec : Nat
deriving DecidableEq

/-- Go `isLeap` (time package). -/
def isLeap (y : Nat) : Bool := y % 4 == 0 && (y % 100 != 0 || y % 400 == 0)

/-- Go `daysIn(m, year)`: number of days of month `m` (1-12). -/
def daysIn (m y : Nat) : Nat :=
  if m == 2 && isLeap y then 29
  else [31, 28, 31, 30, 31, 30, 31, 31, 30, 31, 30, 31].getD (m - 1) 0

/-- `t.Format("2006-01-02T15-04-05.000")`: four-digit year, two-digit month,
day, hour, minute, second and three-digit milliseconds, each zero-padded. -/
def formatBackupTime (t : GoTime) : Str :=
  padNum 4 t.year ++ '-' :: (padNum 2 t.month ++ '-' :: (padNum 2 t.day ++
  'T' :: (padNum 2 t.hour ++ '-' :: (padNum 2 t.minute ++ '-' :: (padNum 2 t.sec ++
  '.' :: padNum 3 (t.nsec / 1000000))))))

/-- `time.Parse("2006-01-02T15-04-05.000", s)`: fixed-width digit fields with
literal separators, trailing text rejected, and the range checks Go applies
(month 1-12, day 1..daysIn, hour < 24, minute < 60, second < 60). -/
def parseBackupTime (s : Str) : Option GoTime := do
  let (y, s) ← readDigits 4 s 0
  let s ← expectChar '-' s
  let (mo, s) ← readDigits 2 s 0
  let s ← expectChar '-' s
  let (d, s) ← readDigits 2 s 0
  let s ← expectChar 'T' s
  let (h, s) ← readDigits 2 s 0
  let s ← expectChar '-' s
  let (mi, s) ← readDigits 2 s 0
  let s ← expectChar '-' s
  let (sec, s) ← readDigits 2 s 0
  let s ← expectChar '.' s
  let (ms, s) ← readDigits 3 s 0
  if ¬ s = [] then none
  else if mo < 1 ∨ 12 < mo then none
  else if 24 ≤ h then none
  else if 60 ≤ mi then none
  else if 60 ≤ sec then none
  else if d < 1 ∨ daysIn mo y < d then none
  else some ⟨y, mo, d, h, mi, sec, ms * 1000000⟩

/-- Fields of a `time.Time` Go's `Date` would accept, restricted to the
four-digit years the format prints unambiguously. -/
def ValidTime (t : GoTime) : Prop :=
  t.year ≤ 9999 ∧ 1 ≤ t.month ∧ t.month ≤ 12 ∧ 1 ≤ t.day ∧
  t.day ≤ daysIn t.month t.year ∧ t.hour < 24 ∧ t.minute < 60 ∧ t.sec < 60 ∧
  t.nsec < 1000000000

instance (t : GoTime) : Decidable (ValidTime t) := by
  unfold ValidTime
  infer_instance

/-- Truncation to the millisecond precision the format keeps. -/
def truncMs (t : GoTime) : GoTime := { t with nsec := t.nsec / 1000000 * 1000000 }

/-! ## Go path functions (path/filepath, unix rules)

Straight ports of `Ext`, `Base`, `Clean`, `Dir` and the two-argument `Join`.
Go's imperative `Clean` loop is translated with an explicit `inComp` flag for
its inner copy loop. -/

/-- `filepath.Ext`: suffix starting at the final dot in the final
slash-separated element; empty if there is no dot. -/
def goExt (p : Str) : Str :=
  let revComp := p.reverse.takeWhile (fun c => ¬ c = '/')
  if '.' ∈ revComp then (revComp.takeWhile (fun c => ¬ c = '.') ++ ['.']).reverse else []

/-- `filepath.Base`: last element of the path after stripping trailing
slashes; "." for the empty path, "/" for an all-slash path. -/
def goBase (p : Str) : Str :=
  if p = [] then ['.']
  else
    let p1 := (p.reverse.dropWhile (fun c => c = '/')).reverse
    let b := (p1.reverse.takeWhile (fun c => ¬ c = '/')).reverse
    if b = [] then ['/'] else b

/-- State of Go `Clean`'s output buffer: the kept characters and the
`dotdot` low-water mark below which `..` may not pop. -/
structure CleanState where
  out : Str
  dotdot : Nat
deriving DecidableEq

/-- Go `Clean`'s `..`-pop: `out.w--`, then back up over the last component,
stopping at a separator or at `dotdot`; returns the index to truncate to. -/
def popScan (out : Str) (dd : Nat) : Nat → Nat
  | 0 => 0
  | w + 1 => if dd < w + 1 ∧ ¬ out.getD (w + 1) '/' = '/' then popScan out dd w else w + 1

/-- Truncated output buffer after a `..`-pop. -/
def popTo (out : Str) (dd : Nat) : Str := out.take (popScan out dd (out.length - 1))

/-- The `..` case of Go `Clean`: pop a component if one is above `dotdot`,
else (when not rooted) append a literal `..` element. -/
def ddState (rooted : Bool) (st : CleanState) : CleanState :=
  if st.dotdot < st.out.length then { st with out := popTo st.out st.dotdot }
  else if ¬ rooted then
    let out1 := if 0 < st.out.length then st.out ++ ['/', '.', '.'] else st.out ++ ['.', '.']
    { out := out1, dotdot := out1.length }
  else st

/-- Append the separator Go writes before a copied component (skipped when
the buffer is empty, or holds just the root slash). -/
def sepPlus (rooted : Bool) (out : Str) : Str :=
  if (rooted ∧ ¬ out.length = 1) ∨ (¬ rooted ∧ ¬ out.length = 0) then out ++ ['/'] else out

/-- The scanning loop of Go `Clean`.  `inComp` is true while inside the
inner loop that copies a component verbatim. -/
def cleanLoop (rooted : Bool) : Str → Bool → CleanState → Str
  | [], _, st => st.out
  | '/' :: rest, _, st => cleanLoop rooted rest false st
  | c :: rest, true, st => cleanLoop rooted rest true { st with out := st.out ++ [c] }
  | ['.'], false, st => st.out
  | '.' :: '/' :: rest, false, st => cleanLoop rooted ('/' :: rest) false st
  | ['.', '.'], false, st => (ddState rooted st).out
  | '.' :: '.' :: '/' :: rest, false, st => cleanLoop rooted ('/' :: rest) false (ddState rooted st)
  | c :: rest, false, st => cleanLoop rooted rest true { st with out := sepPlus rooted st.out ++ [c] }

/-- `filepath.Clean` (unix). -/
def goClean (p : Str) : Str :=
  if p = [] then ['.']
  else
    let rooted := p.headD ' ' = '/'
    let res :=
      if rooted then cleanLoop true p.tail false ⟨['/'], 1⟩
      else cleanLoop false p false ⟨[], 0⟩
    if res = [] then ['.'] else res

/-- `filepath.Dir`: everything up to and including the final slash,
cleaned. -/
def goDir (p : Str) : Str :=
  goClean ((p.reverse.dropWhile (fun c => ¬ c = '/')).reverse)

/-- Two-argument `filepath.Join`. -/
def goJoin (d n : Str) : Str :=
  if d = [] then (if n = [] then [] else goClean n)
  else goClean (d ++ '/' :: n)

/-! ## The naming scheme (lumberjack.go) -/

/-- `compressSuffix = ".gz"`. -/
def compressSuffix : Str := ['.', 'g', 'z']

/-- `backupName(name, local)`: inserts the formatted rotation timestamp
between the stem and the extension of the file name, in the same directory.
`t` is the clock reading taken inside `backupName` (`currentTime()`, already
adjusted to UTC or local wall-clock fields per the `local` flag, which only
selects which wall-clock reading of the same instant is formatted). -/
def backupName (name : Str) (t : GoTime) : Str :=
  let dir := goDir name
  let filename := goBase name
  let ext := goExt filename
  let pre := filename.take (filename.length - ext.length)
  goJoin dir (pre ++ '-' :: (formatBackupTime t ++ ext))

/-- `Roller.prefixAndExt`: the filename part and extension part used to
recognise backups of this log; the prefix includes the trailing hyphen. -/
def prefixAndExt (name : Str) : Str × Str :=
  let filename := goBase name
  let ext := goExt filename
  (filename.take (filename.length - ext.length) ++ ['-'], ext)

/-- Outcome of `Roller.timeFromName`.  Go returns `(time.Time, error)`; the
slice expression `filename[len(prefix) : len(filename)-len(ext)]` panics at
run time when the prefix and suffix matches overlap, which we surface as a
distinct outcome. -/
inductive TfnResult
  | ok (t : GoTime)
  | errored
  | sliceOOB
deriving DecidableEq

/-- `Roller.timeFromName(filename, prefix, ext)`: checks the prefix and
suffix, slices out the middle and parses it with the backup time format. -/
def timeFromName (filename pre ext : Str) : TfnResult :=
  if ¬ pre.isPrefixOf filename then .errored
  else if ¬ ext.isSuffixOf filename then .errored
  else if filename.length - ext.length < pre.length then .sliceOOB
  else
    match parseBackupTime ((filename.drop pre.length).take
        (filename.length - ext.length - pre.length)) with
    | some t => .ok t
    | none => .errored

theorem expectChar_cons (c : Char) (s : Str) : expectChar c (c :: s) = some s := by
  simp [expectChar]

theorem daysIn_le_31 (m y : Nat) (h1 : 1 ≤ m) (h2 : m ≤ 12) : daysIn m y ≤ 31 := by
  unfold daysIn
  split
  · omega
  · match m, h1, h2 with
    | 1, _, _ => decide
    | 2, _, _ => decide
    | 3, _, _ => decide
    | 4, _, _ => decide
    | 5, _, _ => decide
    | 6, _, _ => decide
    | 7, _, _ => decide
    | 8, _, _ => decide
    | 9, _, _ => decide
    | 10, _, _ => decide
    | 11, _, _ => decide
    | 12, _, _ => decide

set_option maxHeartbeats 2000000 in
theorem parse_format (t : GoTime) (h : ValidTime t) :
    parseBackupTime (formatBackupTime t) = some (truncMs t) := by
  obtain ⟨hy, hmo1, hmo2, hd1, hd2, hh, hmi, hs, hns⟩ := h
  have hms : t.nsec / 1000000 < 1000 := by omega
  have e1 : ∀ rest, readDigits 4 (padNum 4 t.year ++ rest) 0 = some (t.year, rest) :=
    fun rest => readDigits_padNum 4 t.year rest (by omega) (by omega)
  have e2 : ∀ rest, readDigits 2 (padNum 2 t.month ++ rest) 0 = some (t.month, rest) :=
    fun rest => readDigits_padNum 2 t.month rest (by omega) (by omega)
  have e3 : ∀ rest, readDigits 2 (padNum 2 t.day ++ rest) 0 = some (t.day, rest) :=
    fun rest => readDigits_padNum 2 t.day rest (by omega)
      (by have := daysIn_le_31 t.month t.year hmo1 hmo2; omega)
  have e4 : ∀ rest, readDigits 2 (padNum 2 t.hour ++ rest) 0 = some (t.hour, rest) :=
    fun rest => readDigits_padNum 2 t.hour rest (by omega) (by omega)
  have e5 : ∀ rest, readDigits 2 (padNum 2 t.minute ++ rest) 0 = some (t.minute, rest) :=
    fun rest => readDigits_padNum 2 t.minute rest (by omega) (by omega)
  have e6 : ∀ rest, readDigits 2 (padNum 2 t.sec ++ rest) 0 = some (t.sec, rest) :=
    fun rest => readDigits_padNum 2 t.sec rest (by omega) (by omega)
  have e7 : readDigits 3 (padNum 3 (t.nsec / 1000000)) 0 = some (t.nsec / 1000000, []) := by
    have := readDigits_padNum 3 (t.nsec / 1000000) [] (by omega) (by omega)
    rwa [List.append_nil] at this
  unfold formatBackupTime parseBackupTime
  rw [e1]
  simp only [Option.bind_eq_bind, Option.some_bind]
  rw [expectChar_cons]
  simp only [Option.some_bind]
  rw [e2]
  simp only [Option.some_bind]
  rw [expectChar_cons]
  simp only [Option.some_bind]
  rw [e3]
  simp only [Option.some_bind]
  rw [expectChar_cons]
  simp only [Option.some_bind]
  rw [e4]
  simp only [Option.some_bind]
  rw [expectChar_cons]
  simp only [Option.some_bind]
  rw [e5]
  simp only [Option.some_bind]
  rw [expectChar_cons]
  simp only [Option.some_bind]
  rw [e6]
  simp only [Option.some_bind]
  rw [expectChar_cons]
  simp only [Option.some_bind]
  rw [e7]
  simp only [Option.some_bind]
  rw [if_neg (by simp), if_neg (by omega), if_neg (by omega), if_neg (by omega),
    if_neg (by omega), if_neg (by omega)]
  rfl


end Lumberjack

namespace Lumberjack

/-- Invariant kept by `Clean` when the path is rooted: the buffer keeps the
leading slash and the `dotdot` barrier. -/
def StOk (rooted : Bool) (st : CleanState) : Prop :=
  rooted = true → 1 ≤ st.out.length ∧ st.out.headD ' ' = '/' ∧ st.dotdot = 1

theorem cleanLoop_copy (rooted : Bool) (s : Str) (st : CleanState)
    (h : ∀ c ∈ s, ¬ c = '/') :
    cleanLoop rooted s true st = st.out ++ s := by
  induction s generalizing st with
  | nil => simp [cleanLoop]
  | cons c rest ih =>
    have hc : ¬ c = '/' := h c (by simp)
    rw [cleanLoop.eq_def]
    split
    all_goals try (exfalso; simp_all; done)
    rename_i cc restc hns heqlist heqtrue
    injection heqlist with h1 h2
    subst h1
    subst h2
    rw [ih _ (fun c hc => h c (by simp [hc]))]
    simp

theorem cleanLoop_lastComp (rooted : Bool) (fname : Str) (st : CleanState)
    (h1 : ¬ fname = []) (h2 : ∀ c ∈ fname, ¬ c = '/')
    (h3 : ¬ fname = ['.']) (h4 : ¬ fname = ['.', '.']) :
    cleanLoop rooted fname false st = sepPlus rooted st.out ++ fname := by
  match fname, h1 with
  | c :: rest, _ =>
    have hc : ¬ c = '/' := h2 c (by simp)
    rw [cleanLoop.eq_def]
    split
    all_goals try (exfalso; simp_all; done)
    rename_i cc restc hns heqlist heqfalse
    injection heqlist with g1 g2
    subst g1
    subst g2
    rw [cleanLoop_copy rooted rest _ (fun c hc => h2 c (by simp [hc]))]
    simp

theorem popScan_ge_one (out : Str) (dd : Nat) (hdd : 1 ≤ dd) :
    ∀ w, 1 ≤ w → 1 ≤ popScan out dd w := by
  intro w
  induction w with
  | zero => omega
  | succ w ih =>
    intro _
    rw [popScan]
    split
    · rcases Nat.eq_zero_or_pos w with hw | hw
      · subst hw
        simp_all
      · exact ih hw
    · omega

theorem ddState_ok (rooted : Bool) (st : CleanState) (h : StOk rooted st) :
    StOk rooted (ddState rooted st) := by
  intro hr
  subst hr
  obtain ⟨hl, hh, hd⟩ := h rfl
  unfold ddState
  split
  · rename_i hpop
    rw [hd] at hpop
    have hp1 : 1 ≤ popScan st.out 1 (st.out.length - 1) :=
      popScan_ge_one st.out 1 (by omega) _ (by omega)
    refine ⟨?_, ?_, hd⟩
    · show 1 ≤ (popTo st.out st.dotdot).length
      unfold popTo
      rw [hd]
      simp only [List.length_take]
      omega
    · show (popTo st.out st.dotdot).headD ' ' = '/'
      unfold popTo
      rw [hd]
      match hk : popScan st.out 1 (st.out.length - 1), hp1 with
      | k + 1, _ =>
        rcases hout : st.out with _ | ⟨a, r⟩
        · rw [hout] at hl; simp at hl
        · rw [hout] at hh
          simp only [List.take_succ_cons, List.headD_cons]
          simpa using hh
  · rw [if_neg (by simp)]
    exact ⟨hl, hh, hd⟩

theorem step_slash (rooted : Bool) (l : Str) (m : Bool) (st : CleanState) :
    cleanLoop rooted ('/' :: l) m st = cleanLoop rooted l false st := by
  cases m <;> rfl

theorem step_dot_slash (rooted : Bool) (l : Str) (st : CleanState) :
    cleanLoop rooted ('.' :: '/' :: l) false st = cleanLoop rooted ('/' :: l) false st := rfl

theorem step_dotdot_slash (rooted : Bool) (l : Str) (st : CleanState) :
    cleanLoop rooted ('.' :: '.' :: '/' :: l) false st
      = cleanLoop rooted ('/' :: l) false (ddState rooted st) := rfl

theorem step_copy (rooted : Bool) (c : Char) (l : Str) (st : CleanState) (hc : ¬ c = '/') :
    cleanLoop rooted (c :: l) true st
      = cleanLoop rooted l true { st with out := st.out ++ [c] } := by
  rw [cleanLoop.eq_def]
  split
  all_goals try (exfalso; simp_all; done)
  rename_i cc restc hns heqlist heqtrue
  injection heqlist with g1 g2
  subst g1
  subst g2
  rfl

theorem step_dflt (rooted : Bool) (c : Char) (l : Str) (st : CleanState)
    (hc : ¬ c = '/') (hnd : ¬ c = '.') :
    cleanLoop rooted (c :: l) false st
      = cleanLoop rooted l true { st with out := sepPlus rooted st.out ++ [c] } := by
  rw [cleanLoop.eq_def]
  split
  all_goals try (exfalso; simp_all; done)
  rename_i cc restc hns heqlist heqfalse
  injection heqlist with g1 g2
  subst g1
  subst g2
  rfl

theorem step_dot_comp (rooted : Bool) (d : Char) (l : Str) (st : CleanState)
    (hd : ¬ d = '/') (hdd : ¬ d = '.') :
    cleanLoop rooted ('.' :: d :: l) false st
      = cleanLoop rooted (d :: l) true { st with out := sepPlus rooted st.out ++ ['.'] } := by
  rw [cleanLoop.eq_def]
  split
  all_goals try (exfalso; simp_all; done)
  rename_i cc restc hns heqlist heqfalse
  injection heqlist with g1 g2
  subst g1
  subst g2
  rfl

theorem step_dotdot_comp (rooted : Bool) (e : Char) (l : Str) (st : CleanState)
    (he : ¬ e = '/') :
    cleanLoop rooted ('.' :: '.' :: e :: l) false st
      = cleanLoop rooted ('.' :: e :: l) true { st with out := sepPlus rooted st.out ++ ['.'] } := by
  rw [cleanLoop.eq_def]
  split
  all_goals try (exfalso; simp_all; done)
  rename_i cc restc hns heqlist heqfalse
  injection heqlist with g1 g2
  subst g1
  subst g2
  rfl

theorem headD_append_of_ne_nil (out l : Str) (h : 1 ≤ out.length) :
    (out ++ l).headD ' ' = out.headD ' ' := by
  rcases out with _ | ⟨a, r⟩
  · simp at h
  · simp

theorem StOk_append (rooted : Bool) (st : CleanState) (l : Str) (h : StOk rooted st) :
    StOk rooted { st with out := st.out ++ l } := by
  intro hr
  obtain ⟨h1, h2, h3⟩ := h hr
  refine ⟨by simp; omega, ?_, h3⟩
  rw [headD_append_of_ne_nil st.out l h1]
  exact h2

theorem sepPlus_headD (rooted : Bool) (out : Str) (h : 1 ≤ out.length) :
    (sepPlus rooted out).headD ' ' = out.headD ' ' := by
  unfold sepPlus
  split
  · exact headD_append_of_ne_nil out ['/'] h
  · rfl

theorem sepPlus_len (rooted : Bool) (out : Str) : out.length ≤ (sepPlus rooted out).length := by
  unfold sepPlus
  split <;> simp

theorem StOk_sepPlus_append (rooted : Bool) (st : CleanState) (l : Str) (h : StOk rooted st) :
    StOk rooted { st with out := sepPlus rooted st.out ++ l } := by
  intro hr
  obtain ⟨h1, h2, h3⟩ := h hr
  have hsl := sepPlus_len rooted st.out
  refine ⟨by simp; omega, ?_, h3⟩
  rw [headD_append_of_ne_nil _ l (by omega), sepPlus_headD rooted st.out h1]
  exact h2

theorem sepPlus_pre (rooted : Bool) (out : Str)
    (hok : rooted = true → 1 ≤ out.length ∧ out.headD ' ' = '/') :
    sepPlus rooted out = [] ∨ (sepPlus rooted out).getLast? = some '/' := by
  unfold sepPlus
  split
  · right
    exact List.getLast?_concat out
  · rename_i hcond
    cases rooted with
    | true =>
      obtain ⟨h1, h2⟩ := hok rfl
      have hlen : out.length = 1 := by
        by_contra hll
        exact hcond (Or.inl ⟨rfl, hll⟩)
      rcases out with _ | ⟨a, r⟩
      · simp at hlen
      · have hr : r = [] := by simpa using hlen
        subst hr
        simp at h2
        right
        simp [h2]
    | false =>
      have hlen : out.length = 0 := by
        by_contra hll
        exact hcond (Or.inr ⟨by simp, hll⟩)
      left
      simpa using List.eq_nil_of_length_eq_zero hlen

theorem cleanLoop_keepLast (rooted : Bool) (fname : Str)
    (h1 : ¬ fname = []) (h2 : ∀ c ∈ fname, ¬ c = '/')
    (h3 : ¬ fname = ['.']) (h4 : ¬ fname = ['.', '.']) :
    ∀ (n : Nat) (s : Str), s.length ≤ n → ∀ (m : Bool) (st : CleanState), StOk rooted st →
      ∃ pre, cleanLoop rooted (s ++ '/' :: fname) m st = pre ++ fname ∧
        (pre = [] ∨ pre.getLast? = some '/') := by
  intro n
  induction n with
  | zero =>
    intro s hs m st hok
    have hnil : s = [] := List.eq_nil_of_length_eq_zero (by omega)
    subst hnil
    rw [List.nil_append, step_slash, cleanLoop_lastComp rooted fname st h1 h2 h3 h4]
    exact ⟨sepPlus rooted st.out, rfl,
      sepPlus_pre rooted st.out (fun hr => ⟨(hok hr).1, (hok hr).2.1⟩)⟩
  | succ n ih =>
    intro s hs m st hok
    rcases s with _ | ⟨c, s⟩
    · rw [List.nil_append, step_slash, cleanLoop_lastComp rooted fname st h1 h2 h3 h4]
      exact ⟨sepPlus rooted st.out, rfl,
        sepPlus_pre rooted st.out (fun hr => ⟨(hok hr).1, (hok hr).2.1⟩)⟩
    · have hs' : s.length ≤ n := by simpa using hs
      by_cases hc : c = '/'
      · subst hc
        rw [List.cons_append, step_slash]
        exact ih s hs' false st hok
      · cases m with
        | true =>
          rw [List.cons_append, step_copy rooted c _ st hc]
          exact ih s hs' true _ (StOk_append rooted st [c] hok)
        | false =>
          by_cases hdot : c = '.'
          · subst hdot
            rcases s with _ | ⟨d, s2⟩
            · rw [List.cons_append, List.nil_append, step_dot_slash, step_slash,
                cleanLoop_lastComp rooted fname st h1 h2 h3 h4]
              exact ⟨sepPlus rooted st.out, rfl,
                sepPlus_pre rooted st.out (fun hr => ⟨(hok hr).1, (hok hr).2.1⟩)⟩
            · by_cases hd : d = '/'
              · subst hd
                rw [List.cons_append, List.cons_append, step_dot_slash, step_slash]
                exact ih s2 (by simp at hs'; omega) false st hok
              · by_cases hdd : d = '.'
                · subst hdd
                  rcases s2 with _ | ⟨e, s3⟩
                  · rw [List.cons_append, List.cons_append, List.nil_append,
                      step_dotdot_slash, step_slash,
                      cleanLoop_lastComp rooted fname _ h1 h2 h3 h4]
                    refine ⟨sepPlus rooted (ddState rooted st).out, rfl, ?_⟩
                    have hok2 := ddState_ok rooted st hok
                    exact sepPlus_pre rooted _ (fun hr => ⟨(hok2 hr).1, (hok2 hr).2.1⟩)
                  · by_cases he : e = '/'
                    · subst he
                      rw [List.cons_append, List.cons_append, List.cons_append,
                        step_dotdot_slash, step_slash]
                      exact ih s3 (by simp at hs'; omega) false _ (ddState_ok rooted st hok)
                    · rw [List.cons_append, List.cons_append, List.cons_append,
                        step_dotdot_comp rooted e _ st he]
                      have hres := ih ('.' :: e :: s3) (by simp at hs' ⊢; omega) true _
                        (StOk_sepPlus_append rooted st ['.'] hok)
                      simpa using hres
                · rw [List.cons_append, List.cons_append, step_dot_comp rooted d _ st hd hdd]
                  have hres := ih (d :: s2) (by simpa using hs') true _
                    (StOk_sepPlus_append rooted st ['.'] hok)
                  simpa using hres
          · rw [List.cons_append, step_dflt rooted c _ st hc hdot]
            exact ih s hs' true _ (StOk_sepPlus_append rooted st [c] hok)

theorem takeWhile_append_all (p : Char → Bool) (l1 l2 : Str) (h : ∀ c ∈ l1, p c = true) :
    (l1 ++ l2).takeWhile p = l1 ++ l2.takeWhile p := by
  induction l1 with
  | nil => simp
  | cons a l ih =>
    simp only [List.cons_append, List.takeWhile_cons, h a (by simp), ih (fun c hc => h c (by simp [hc]))]
    simp

theorem dropWhile_cons_false (p : Char → Bool) (a : Char) (l : Str) (h : p a = false) :
    (a :: l).dropWhile p = a :: l := by
  simp [List.dropWhile_cons, h]

theorem goBase_of_pre (pre fname : Str) (hf1 : ¬ fname = [])
    (hf2 : ∀ c ∈ fname, ¬ c = '/')
    (hpre : pre = [] ∨ pre.getLast? = some '/') :
    goBase (pre ++ fname) = fname := by
  obtain ⟨a, r, hrev⟩ : ∃ a r, fname.reverse = a :: r := by
    rcases hx : fname.reverse with _ | ⟨a, r⟩
    · exact absurd (by simpa using congrArg List.reverse hx) hf1
    · exact ⟨a, r, rfl⟩
  have ha : ¬ a = '/' := hf2 a (by
    have : a ∈ fname.reverse := by rw [hrev]; simp
    simpa using this)
  have hrevapp : (pre ++ fname).reverse = a :: (r ++ pre.reverse) := by
    rw [List.reverse_append, hrev]; simp
  have hdrop : ((pre ++ fname).reverse.dropWhile (fun c => c = '/')) = (pre ++ fname).reverse := by
    rw [hrevapp]
    exact dropWhile_cons_false _ a _ (by simp [ha])
  have htake : ((pre ++ fname).reverse.takeWhile (fun c => ¬ c = '/')) = fname.reverse := by
    rw [List.reverse_append, takeWhile_append_all _ _ _ (fun c hc => by
      simp only [decide_eq_true_eq]
      exact hf2 c (by simpa using hc))]
    have : pre.reverse.takeWhile (fun c => ¬ c = '/') = [] := by
      rcases hpre with hnil | hlast
      · simp [hnil]
      · rcases hx : pre.reverse with _ | ⟨b, rb⟩
        · simp
        · have hb : b = '/' := by
            have hgl : pre.getLast? = pre.reverse.head? := List.getLast?_eq_head?_reverse
            rw [hx, hlast] at hgl
            simpa using hgl.symm
          subst hb
          simp [List.takeWhile_cons]
    rw [this, List.append_nil]
  unfold goBase
  rw [if_neg (by
    intro hcon
    exact hf1 (by rcases List.append_eq_nil.mp hcon with ⟨_, h2⟩; exact h2))]
  simp only [List.reverse_reverse, hdrop, htake]
  rw [if_neg hf1]

theorem goClean_ne_nil (p : Str) : ¬ goClean p = [] := by
  unfold goClean
  by_cases hp : p = []
  · rw [if_pos hp]; simp
  · rw [if_neg hp]
    dsimp only
    split <;> split <;> simp_all

theorem goJoin_base (d fname : Str) (h1 : ¬ fname = []) (h2 : ∀ c ∈ fname, ¬ c = '/')
    (h3 : ¬ fname = ['.']) (h4 : ¬ fname = ['.', '.']) :
    goBase (goJoin d fname) = fname := by
  unfold goJoin
  by_cases hd : d = []
  · rw [if_pos hd, if_neg h1]
    unfold goClean
    rw [if_neg h1]
    dsimp only
    have hhead : ¬ (fname.headD ' ' = '/') := by
      rcases fname with _ | ⟨a, r⟩
      · exact absurd rfl h1
      · simpa using h2 a (by simp)
    rw [if_neg hhead, cleanLoop_lastComp false fname _ h1 h2 h3 h4]
    have hsep : sepPlus false (CleanState.out ⟨[], 0⟩) = [] := by
      unfold sepPlus
      rw [if_neg (by simp)]
    rw [hsep, List.nil_append, if_neg h1]
    exact goBase_of_pre [] fname h1 h2 (Or.inl rfl)
  · rw [if_neg hd]
    unfold goClean
    rw [if_neg (by simp [hd])]
    dsimp only
    rcases d with _ | ⟨a, d'⟩
    · exact absurd rfl hd
    · by_cases ha : a = '/'
      · subst ha
        have hhead : (('/' :: d' ++ '/' :: fname).headD ' ' = '/') := by simp
        rw [if_pos hhead]
        have hshape : List.tail ('/' :: d' ++ '/' :: fname) = d' ++ '/' :: fname := by simp
        rw [hshape]
        obtain ⟨pre, hpre, hgood⟩ := cleanLoop_keepLast true fname h1 h2 h3 h4
          d'.length d' le_rfl false ⟨['/'], 1⟩ (fun _ => by simp)
        rw [hpre, if_neg (by simp [h1])]
        exact goBase_of_pre pre fname h1 h2 hgood
      · have hhead : ¬ ((a :: d' ++ '/' :: fname).headD ' ' = '/') := by simpa using ha
        rw [if_neg hhead]
        obtain ⟨pre, hpre, hgood⟩ := cleanLoop_keepLast false fname h1 h2 h3 h4
          (a :: d').length (a :: d') le_rfl false ⟨[], 0⟩ (fun hcon => by simp at hcon)
        rw [hpre, if_neg (by simp [h1])]
        exact goBase_of_pre pre fname h1 h2 hgood

theorem dropWhile_head_false (p : Char → Bool) (l : Str) (b : Char) (rb : Str)
    (h : l.dropWhile p = b :: rb) : p b = false := by
  induction l with
  | nil => simp at h
  | cons a t ih =>
    rw [List.dropWhile_cons] at h
    split at h
    · exact ih h
    · rename_i hpa
      injection h with h1 _
      subst h1
      simpa using hpa

theorem goBase_spec (p : Str) (h : ¬ goBase p = ['/']) :
    ¬ goBase p = [] ∧ ∀ c ∈ goBase p, ¬ c = '/' := by
  by_cases hp : p = []
  · subst hp
    have hdot : goBase ([] : Str) = ['.'] := rfl
    rw [hdot]
    refine ⟨by simp, ?_⟩
    intro c hc
    simp at hc
    subst hc
    decide
  · have hgb : goBase p =
        (if ((((p.reverse.dropWhile (fun c => c = '/')).reverse).reverse).takeWhile
            (fun c => ¬ c = '/')).reverse = []
         then ['/']
         else ((((p.reverse.dropWhile (fun c => c = '/')).reverse).reverse).takeWhile
            (fun c => ¬ c = '/')).reverse) := by
      unfold goBase
      rw [if_neg hp]
    by_cases hb : ((((p.reverse.dropWhile (fun c => c = '/')).reverse).reverse).takeWhile
        (fun c => ¬ c = '/')).reverse = []
    · rw [hgb, if_pos hb] at h
      exact absurd rfl h
    · rw [hgb, if_neg hb]
      refine ⟨hb, ?_⟩
      intro x hx0
      rw [List.mem_reverse] at hx0
      have hpx := List.mem_takeWhile_imp hx0
      exact of_decide_eq_true hpx

theorem goExt_suffix (s : Str) : goExt s <:+ s := by
  unfold goExt
  dsimp only
  split
  · rename_i hdot
    rw [← List.reverse_prefix]
    simp only [List.reverse_reverse]
    have hsplit := List.takeWhile_append_dropWhile
      (fun c => ¬ c = '.') (s.reverse.takeWhile (fun c => ¬ c = '/'))
    rcases hx : (s.reverse.takeWhile (fun c => ¬ c = '/')).dropWhile (fun c => ¬ c = '.')
        with _ | ⟨b, rb⟩
    · exfalso
      rw [List.dropWhile_eq_nil_iff] at hx
      have h2 := hx '.' hdot
      simp at h2
    · have hb : b = '.' := by
        have hf := dropWhile_head_false (fun c => ¬ c = '.') _ b rb hx
        simpa using hf
      subst hb
      have hpre1 : (s.reverse.takeWhile (fun c => ¬ c = '/')).takeWhile (fun c => ¬ c = '.')
          ++ ['.'] <+: s.reverse.takeWhile (fun c => ¬ c = '/') := by
        refine ⟨rb, ?_⟩
        rw [List.append_assoc, List.singleton_append, ← hx]
        exact hsplit
      exact hpre1.trans (List.takeWhile_prefix _)
  · exact List.nil_suffix

theorem stem_ext (s : Str) : s.take (s.length - (goExt s).length) ++ goExt s = s := by
  obtain ⟨pre, hpre⟩ := goExt_suffix s
  set ext := goExt s with hext
  rw [← hpre]
  have hl : (pre ++ ext).length - ext.length = pre.length := by simp
  rw [hl, List.take_left]

theorem digitChar_ne_slash (d : Nat) (h : d < 10) : ¬ digitChar d = '/' := by
  intro he
  have := congrArg Char.toNat he
  rw [digitChar_toNat d h] at this
  have h47 : ('/' : Char).toNat = 47 := by decide
  rw [h47] at this
  omega

theorem padNum_no_slash (w n : Nat) : ∀ c ∈ padNum w n, ¬ c = '/' := by
  intro c hc
  obtain ⟨d, hd, hcd⟩ := padNum_chars w n c hc
  subst hcd
  exact digitChar_ne_slash d hd

theorem format_no_slash (t : GoTime) : ∀ c ∈ formatBackupTime t, ¬ c = '/' := by
  intro c hc
  unfold formatBackupTime at hc
  simp only [List.mem_append, List.mem_cons] at hc
  rcases hc with h|h|h|h|h|h|h|h|h|h|h|h|h
  · exact padNum_no_slash 4 t.year c h
  · subst h; decide
  · exact padNum_no_slash 2 t.month c h
  · subst h; decide
  · exact padNum_no_slash 2 t.day c h
  · subst h; decide
  · exact padNum_no_slash 2 t.hour c h
  · subst h; decide
  · exact padNum_no_slash 2 t.minute c h
  · subst h; decide
  · exact padNum_no_slash 2 t.sec c h
  · subst h; decide
  · exact padNum_no_slash 3 (t.nsec / 1000000) c h

theorem format_length (t : GoTime) (h : ValidTime t) : (formatBackupTime t).length = 23 := by
  obtain ⟨hy, hmo1, hmo2, hd1, hd2, hh, hmi, hs, hns⟩ := h
  have l1 := padNum_length 4 t.year (by omega) (by omega)
  have l2 := padNum_length 2 t.month (by omega) (by omega)
  have l3 := padNum_length 2 t.day (by omega)
    (by have := daysIn_le_31 t.month t.year hmo1 hmo2; omega)
  have l4 := padNum_length 2 t.hour (by omega) (by omega)
  have l5 := padNum_length 2 t.minute (by omega) (by omega)
  have l6 := padNum_length 2 t.sec (by omega) (by omega)
  have l7 := padNum_length 3 (t.nsec / 1000000) (by omega) (by omega)
  unfold formatBackupTime
  simp only [List.length_append, List.length_cons]
  omega

theorem timeFromName_decomp (pre mid ext : Str) :
    timeFromName (pre ++ (mid ++ ext)) pre ext =
      (match parseBackupTime mid with
       | some t => TfnResult.ok t
       | none => TfnResult.errored) := by
  unfold timeFromName
  have hpref : pre.isPrefixOf (pre ++ (mid ++ ext)) = true := by
    rw [List.isPrefixOf_iff_prefix]
    exact List.prefix_append pre _
  have hsuf : ext.isSuffixOf (pre ++ (mid ++ ext)) = true := by
    rw [List.isSuffixOf_iff_suffix, ← List.append_assoc]
    exact List.suffix_append _ ext
  rw [if_neg (by simp [hpref]), if_neg (by simp [hsuf]),
    if_neg (by simp only [List.length_append]; omega)]
  have hmidlen : (pre ++ (mid ++ ext)).length - ext.length - pre.length = mid.length := by
    simp only [List.length_append]
    omega
  rw [List.drop_left, hmidlen, List.take_left]

/-- C4: parsing the base name produced by `backupName` (with the prefix and
extension `prefixAndExt` derives from the same primary path) recovers the
formatted timestamp up to millisecond precision, also with the compressed
suffix appended. -/
theorem backupName_roundtrip (path : Str) (t : GoTime) (hvt : ValidTime t)
    (hb : ¬ goBase path = ['/']) :
    timeFromName (goBase (backupName path t)) (prefixAndExt path).1 (prefixAndExt path).2
        = TfnResult.ok (truncMs t)
    ∧ timeFromName (goBase (backupName path t) ++ compressSuffix) (prefixAndExt path).1
        ((prefixAndExt path).2 ++ compressSuffix) = TfnResult.ok (truncMs t) := by
  obtain ⟨hbne, hbns⟩ := goBase_spec path hb
  have hextns : ∀ c ∈ goExt (goBase path), ¬ c = '/' := fun c hc =>
    hbns c ((goExt_suffix (goBase path)).subset hc)
  have hstemns : ∀ c ∈ (goBase path).take ((goBase path).length - (goExt (goBase path)).length),
      ¬ c = '/' := fun c hc => hbns c (List.take_subset _ _ hc)
  have htsns := format_no_slash t
  have htsl : (formatBackupTime t).length = 23 := format_length t hvt
  have hf2 : ∀ c ∈ (goBase path).take ((goBase path).length - (goExt (goBase path)).length)
      ++ '-' :: (formatBackupTime t ++ goExt (goBase path)), ¬ c = '/' := by
    intro c hc
    simp only [List.mem_append, List.mem_cons] at hc
    rcases hc with h | h | h | h
    · exact hstemns c h
    · subst h; decide
    · exact htsns c h
    · exact hextns c h
  have hf1 : ¬ (goBase path).take ((goBase path).length - (goExt (goBase path)).length)
      ++ '-' :: (formatBackupTime t ++ goExt (goBase path)) = [] := by simp
  have hlen : 24 ≤ ((goBase path).take ((goBase path).length - (goExt (goBase path)).length)
      ++ '-' :: (formatBackupTime t ++ goExt (goBase path))).length := by
    simp only [List.length_append, List.length_cons, htsl]
    omega
  have hf3 : ¬ (goBase path).take ((goBase path).length - (goExt (goBase path)).length)
      ++ '-' :: (formatBackupTime t ++ goExt (goBase path)) = ['.'] := by
    intro he
    rw [he] at hlen
    simp at hlen
  have hf4 : ¬ (goBase path).take ((goBase path).length - (goExt (goBase path)).length)
      ++ '-' :: (formatBackupTime t ++ goExt (goBase path)) = ['.', '.'] := by
    intro he
    rw [he] at hlen
    simp at hlen
  have hgb2 : goBase (backupName path t)
      = (goBase path).take ((goBase path).length - (goExt (goBase path)).length)
        ++ '-' :: (formatBackupTime t ++ goExt (goBase path)) := by
    show goBase (goJoin (goDir path) _) = _
    exact goJoin_base (goDir path) _ hf1 hf2 hf3 hf4
  have hshape : (goBase path).take ((goBase path).length - (goExt (goBase path)).length)
        ++ '-' :: (formatBackupTime t ++ goExt (goBase path))
      = ((goBase path).take ((goBase path).length - (goExt (goBase path)).length) ++ ['-'])
        ++ (formatBackupTime t ++ goExt (goBase path)) := by simp
  have hpe1 : (prefixAndExt path).1
      = (goBase path).take ((goBase path).length - (goExt (goBase path)).length) ++ ['-'] := rfl
  have hpe2 : (prefixAndExt path).2 = goExt (goBase path) := rfl
  constructor
  · rw [hgb2, hshape, hpe1, hpe2, timeFromName_decomp, parse_format t hvt]
  · rw [hgb2, hpe1, hpe2]
    have hshape2 : ((goBase path).take ((goBase path).length - (goExt (goBase path)).length)
          ++ '-' :: (formatBackupTime t ++ goExt (goBase path))) ++ compressSuffix
        = ((goBase path).take ((goBase path).length - (goExt (goBase path)).length) ++ ['-'])
          ++ (formatBackupTime t ++ (goExt (goBase path) ++ compressSuffix)) := by simp
    rw [hshape2, timeFromName_decomp, parse_format t hvt]

/-- Witness for the round-trip theorem at a concrete path and timestamp. -/
theorem backupName_roundtrip_witness :
    ValidTime ⟨2016, 11, 4, 18, 30, 0, 0⟩
    ∧ ¬ goBase ("/var/log/foo/server.log".data) = ['/']
    ∧ timeFromName (goBase (backupName ("/var/log/foo/server.log".data) ⟨2016, 11, 4, 18, 30, 0, 0⟩))
        (prefixAndExt ("/var/log/foo/server.log".data)).1
        (prefixAndExt ("/var/log/foo/server.log".data)).2
        = TfnResult.ok (truncMs ⟨2016, 11, 4, 18, 30, 0, 0⟩) :=
  ⟨by decide, by decide, (backupName_roundtrip _ _ (by decide) (by decide)).1⟩

/-! ## Directory scan (`Roller.oldLogFiles`) -/

/-- Monotone instant key of a wall-clock time (used only to order scan
results the way `byFormatTime` sorts by `timestamp.After`). -/
def goTimeKey (t : GoTime) : Nat :=
  (((((t.year * 13 + t.month) * 32 + t.day) * 24 + t.hour) * 60 + t.minute) * 60 + t.sec)
    * 1000000000 + t.nsec

/-- Outcome of the scan: the classified backups (newest first), or the
run-time panic `timeFromName` can hit. -/
inductive ScanOutcome
  | ok (files : List (GoTime × Str))
  | panicked
deriving DecidableEq

/-- `Roller.oldLogFiles`, given the directory listing as (name, isDir) pairs:
skips directories, classifies each name against the plain extension and then
the extension plus the compressed suffix, keeps the parsed timestamp, and
sorts newest first.  A `sliceOOB` from `timeFromName` is Go's run-time panic
and aborts the scan. -/
def oldLogFilesScan (entries : List (Str × Bool)) (pre ext : Str) : ScanOutcome :=
  let rec collect : List (Str × Bool) → Option (List (GoTime × Str))
    | [] => some []
    | (name, isDir) :: rest =>
      if isDir then collect rest
      else
        match timeFromName name pre ext with
        | .ok t => (collect rest).map ((t, name) :: ·)
        | .sliceOOB => none
        | .errored =>
          match timeFromName name pre (ext ++ compressSuffix) with
          | .ok t => (collect rest).map ((t, name) :: ·)
          | .sliceOOB => none
          | .errored => collect rest
  match collect entries with
  | none => .panicked
  | some files => .ok (files.mergeSort (fun a b => goTimeKey b.1 ≤ goTimeKey a.1))

/-- C6 (code bug): with primary file name `a..-` the derived prefix is `a.-`
and extension `.-`; a directory entry named `a.-` matches both, the slice
bounds `[3:1]` are invalid, and the Go code panics instead of classifying.
-/
theorem timeFromName_slice_panic :
    prefixAndExt ("a..-".data) = ("a.-".data, ".-".data)
    ∧ timeFromName ("a.-".data) ("a.-".data) (".-".data) = TfnResult.sliceOOB
    ∧ oldLogFilesScan [("a.-".data, false)] ("a.-".data) (".-".data) = ScanOutcome.panicked := by
  refine ⟨by decide, by decide, by decide⟩

end Lumberjack
